import Mathlib

/-!
Shallow embedding of the GPU radix sort in `src/main_radix.cpp`.

The host driver (per-bit pass loop, the recursive `prefix_sum` host function,
the dispatch sequence and the buffer swaps) is embedded from the C++ source.
The four OpenCL kernels (`radix_setup`, `radix_gather`, `radix_propagate`,
`radix_move`) are shipped as a generated header and are not part of the
repository sources; they are modelled from the specification, using the
counts-array convention that the source's own debug assertion
(`counts[i+1] == counts[i] + ((keys[i] >> bit) & 1)`, line 191) and the final
validation against `std::sort` force: the counts array is the exclusive
prefix sum of the per-element set-bit flags.

Device buffers are modelled as total functions `ℕ → ℕ` (a GPU buffer is an
index-addressed store; cells outside the allocated range are never read by
the modelled dispatches).  Machine integers: keys are 32-bit unsigned and
counts 64-bit unsigned in the source; all arithmetic performed stays far
below `2^64` (counts are bounded by `n + 1`), so natural numbers model them
exactly and no wrap-around modelling is required.
-/

namespace Radix

/-- Bit `b` of `k` as a natural number (`(k >> b) & 1` in the kernels). -/
def bitOf (k b : ℕ) : ℕ := k / 2 ^ b % 2

/-- Modelled from the spec: the `radix_setup` kernel (Counting Stage, spec §4.1).
It is dispatched over the key range and writes, for `i < n`,
`counts[i] = 1` iff bit `b` of `keys[i]` is set, leaving `counts[n] = 0` as
the base value for the scan. -/
def radix_setup (keys : List ℕ) (b : ℕ) : ℕ → ℕ := fun i =>
  if i < keys.length then bitOf (keys.getD i 0) b else 0

/-- Modelled from the spec: the `radix_gather` kernel (Hierarchical Scan
Stage, up-sweep, spec §4.2 step 2).  At stride `s` over a counts array of
`m` valid entries, task `j` owns the trailing cell `(j+1)*s - 1` of its
stride-`s` block and replaces it (when in range) by the inclusive in-group
scan of the stride-`s` virtual array, so that the trailing cell of every
group of `g` blocks accumulates that group's total for the next level. -/
def radix_gather (g s m : ℕ) (c : ℕ → ℕ) : ℕ → ℕ := fun i =>
  if i < m ∧ (i + 1) % s = 0 then
    ∑ k ∈ Finset.Icc (((i + 1) / s - 1) / g * g) ((i + 1) / s - 1), c ((k + 1) * s - 1)
  else c i

/-- Modelled from the spec: the value a `radix_propagate` task with virtual
index `j` at stride `s` computes: the coarser level's accumulated offset for
`j`'s group (read from the trailing cell of the preceding coarser blocks in
the current buffer) plus the in-group partial sum snapshotted by the gather
phase (spec §4.2 step 5). -/
def propagate_val (g s m : ℕ) (cur : ℕ → ℕ) (j : ℕ) : ℕ :=
  (if j % g = 0 then 0 else cur (j * s - 1)) +
  (if j / g = 0 then 0 else cur (min ((j / g + 1) * (s * g) - 1) (m - 1)))

/-- Modelled from the spec: the `radix_propagate` kernel (down-sweep, spec
§4.2 step 5).  Task `j` writes the fully resolved exclusive prefix for the
start of its stride-`s` block into the scratch buffer at its trailing cell,
clamping the final partial block's write to the last cell `m - 1`; all other
scratch cells keep their snapshotted values. -/
def radix_propagate (g s m : ℕ) (cur scr : ℕ → ℕ) : ℕ → ℕ := fun i =>
  if i < m ∧ (i + 1) % s = 0 then propagate_val g s m cur ((i + 1) / s - 1)
  else if i + 1 = m then propagate_val g s m cur ((m - 1) / s)
  else scr i

/-- The host-side scan recursion, embedded from `main_radix.cpp` lines
136-154: issue the gather dispatch on the current counts buffer; if
`step * workGroupSize` still indexes within range `m = n + 1`, recurse with
the multiplied step, otherwise snapshot the counts buffer into the scratch
buffer (`copyToN`); after the recursive call returns, issue the propagate
dispatch for the current step and swap the two counts buffers.  The state is
the (current, scratch) buffer pair.  The extra `fuel` argument makes the
recursion structural; `prefix_sum` is always run with fuel `m`, which the
development proves sufficient (the C++ recursion depth is logarithmic). -/
def prefix_sum (g m : ℕ) : ℕ → ℕ → ((ℕ → ℕ) × (ℕ → ℕ)) → ((ℕ → ℕ) × (ℕ → ℕ))
  | 0, step, st =>
    let c1 := radix_gather g step m st.1
    (radix_propagate g step m c1 c1, c1)
  | fuel + 1, step, st =>
    let c1 := radix_gather g step m st.1
    let st2 := if step * g < m then prefix_sum g m fuel (step * g) (c1, st.2)
               else (c1, c1)
    (radix_propagate g step m st2.1 st2.2, st2.1)

/-- The (current, scratch) counts-buffer pair after the top-level
`prefix_sum(1)` call of a pass (`main_radix.cpp` line 174). -/
def scanState (g m : ℕ) (c : ℕ → ℕ) : (ℕ → ℕ) × (ℕ → ℕ) :=
  prefix_sum g m m 1 (c, fun _ => 0)

/-- The current counts buffer (`a_cnts_gpu`) after the top-level scan. -/
def scanTop (g m : ℕ) (c : ℕ → ℕ) : ℕ → ℕ := (scanState g m c).1

/-- A key list as the buffer function the dispatches read. -/
def keysFun (keys : List ℕ) : ℕ → ℕ := fun i => keys.getD i 0

/-- Modelled from the spec: the destination index a `radix_move` task computes
for element `i`, with `cnt` the scanned counts buffer (exclusive prefix sums
of the set-bit flags, the convention the source's debug assertion at line 191
and the final `std::sort` validation fix): a 0-bit key goes to
`i - cnt i` (its rank among 0-bit keys) and a 1-bit key goes after all 0-bit
keys at `(n - cnt n) + cnt i` (its rank among 1-bit keys). -/
def radix_move_dest (n : ℕ) (keysf cnt : ℕ → ℕ) (b i : ℕ) : ℕ :=
  if bitOf (keysf i) b = 0 then i - cnt i else (n - cnt n) + cnt i

/-- The destination mapping exactly as the spec's §4.3 words state it: a
0-bit key goes to `cnt i` and a 1-bit key to `cnt n + (i - cnt i)`.  (Used to
compare the spec sentence against the convention the source forces.) -/
def spec_move_dest (n : ℕ) (keysf cnt : ℕ → ℕ) (b i : ℕ) : ℕ :=
  if bitOf (keysf i) b = 0 then cnt i else cnt n + (i - cnt i)

/-- One write per parallel task: task `i` (for `i < n`) writes value `src i`
at destination `dst i` into the destination buffer. -/
def writeAll (n : ℕ) (dst src out : ℕ → ℕ) : ℕ → ℕ :=
  (List.range n).foldl (fun acc i => Function.update acc (dst i) (src i)) out

/-- Modelled from the spec: the `radix_move` kernel (Scatter Stage, §4.3)
writing every key to its destination in the fresh destination buffer. -/
def radix_move (n : ℕ) (keysf cnt : ℕ → ℕ) (b : ℕ) : ℕ → ℕ :=
  writeAll n (radix_move_dest n keysf cnt b) keysf (fun _ => 0)

/-- The scatter stage with the spec's literal §4.3 destination formula. -/
def spec_move (n : ℕ) (keysf cnt : ℕ → ℕ) (b : ℕ) : ℕ → ℕ :=
  writeAll n (spec_move_dest n keysf cnt b) keysf (fun _ => 0)

/-- One full pass of the Pass Driver for bit `b` (`main_radix.cpp` lines
172-196): counting dispatch (`setup_buckets`), hierarchical scan
(`prefix_sum(1)`), scatter (`reorder`), and the key-buffer swap that makes
the scatter output the next pass's input.  Returns the new current key
buffer's contents as a list. -/
def radix_pass (g : ℕ) (keys : List ℕ) (b : ℕ) : List ℕ :=
  let n := keys.length
  let cnt := scanTop g (n + 1) (radix_setup keys b)
  (List.range n).map (radix_move n (keysFun keys) cnt b)

/-- A pass whose scatter uses the spec's literal §4.3 destination formula. -/
def spec_pass (g : ℕ) (keys : List ℕ) (b : ℕ) : List ℕ :=
  let n := keys.length
  let cnt := scanTop g (n + 1) (radix_setup keys b)
  (List.range n).map (spec_move n (keysFun keys) cnt b)

/-- The full sort: the per-bit pass loop of `main_radix.cpp` line 172, one
pass per bit of a 32-bit key, bits 0 to 31 in order. -/
def radix_sort (g : ℕ) (keys : List ℕ) : List ℕ :=
  (List.range 32).foldl (fun ks b => radix_pass g ks b) keys

/-- The stable partition of a key list by bit `b`: 0-bit keys first, then
1-bit keys, each class in its original relative order (spec §4.3/§8). -/
def stablePartition (keys : List ℕ) (b : ℕ) : List ℕ :=
  keys.filter (fun k => bitOf k b == 0) ++ keys.filter (fun k => bitOf k b == 1)

/-- Number of keys among the first `i` whose bit `b` is set. -/
def count1 (keys : List ℕ) (b i : ℕ) : ℕ :=
  ((keys.take i).filter (fun k => bitOf k b == 1)).length

/-- Number of keys among the first `i` whose bit `b` is clear. -/
def count0 (keys : List ℕ) (b i : ℕ) : ℕ :=
  ((keys.take i).filter (fun k => bitOf k b == 0)).length

/-- Host-issued dispatch/copy/swap events of the scan recursion. -/
inductive ScanEv
  | gather (step : ℕ)
  | copy
  | propagate (step : ℕ)
  | swap
deriving DecidableEq, Repr

/-- The event trace of the host scan recursion `prefix_sum` (`main_radix.cpp`
lines 136-154): gather at the current step; recurse with `step * g` exactly
when it still indexes within range `m`, otherwise snapshot (`copyToN`, the
base case); then the propagate dispatch for the current step and the
counts-buffer swap. -/
def prefix_sum_trace (g m : ℕ) : ℕ → ℕ → List ScanEv
  | 0, step => [.gather step, .copy, .propagate step, .swap]
  | fuel + 1, step =>
    .gather step ::
      ((if step * g < m then prefix_sum_trace g m fuel (step * g) else [.copy]) ++
        [.propagate step, .swap])

/-- Number of recursive levels below the call at `step` (0 at the base). -/
def scanDepth (g m : ℕ) : ℕ → ℕ → ℕ
  | 0, _ => 0
  | fuel + 1, step => if step * g < m then scanDepth g m fuel (step * g) + 1 else 0

/-- Index embedding that skips slot `q`: the destinations of the tail
elements of a cons-step, relative to the tail's own destinations. -/
def gapAt (q d : ℕ) : ℕ := if d < q then d else d + 1

/-- The destination map of a pass over `keys` and bit `b`, with the counts
buffer already resolved to `count1`. -/
def destC (keys : List ℕ) (b : ℕ) : ℕ → ℕ :=
  radix_move_dest keys.length (keysFun keys) (fun j => count1 keys b j) b

/-- The key list after the passes for bits `0 .. b-1` of the bit loop. -/
def sortPasses (g : ℕ) (keys : List ℕ) (b : ℕ) : List ℕ :=
  (List.range b).foldl (fun ks i => radix_pass g ks i) keys

/-- Discriminator for propagate dispatch events. -/
def isPropagateEv : ScanEv → Bool
  | ScanEv.propagate _ => true
  | _ => false

/-- Discriminator for buffer-swap events. -/
def isSwapEv : ScanEv → Bool
  | ScanEv.swap => true
  | _ => false

/-! ### Correctness of the hierarchical scan -/

/-- Concatenating `n` consecutive stride-`s` block sums yields the sum over
the concatenated index interval. -/
theorem sum_blocks (c0 : ℕ → ℕ) (s a : ℕ) :
    ∀ n, ∑ k ∈ Finset.Ico a (a + n), (∑ q ∈ Finset.Ico (k * s) ((k + 1) * s), c0 q)
      = ∑ q ∈ Finset.Ico (a * s) ((a + n) * s), c0 q := by
  intro n
  induction n with
  | zero => simp
  | succ n ih =>
    rw [show a + (n + 1) = (a + n) + 1 by ring, Finset.sum_Ico_succ_top (by omega), ih]
    rw [Finset.sum_Ico_consecutive]
    · exact Nat.mul_le_mul_right s (by omega)
    · exact Nat.mul_le_mul_right s (by omega)

/-- A sum over `Finset.range a` extended by a sum over `Finset.Ico a b`. -/
theorem range_add_Ico (c0 : ℕ → ℕ) (a b : ℕ) (h : a ≤ b) :
    ∑ q ∈ Finset.range a, c0 q + ∑ q ∈ Finset.Ico a b, c0 q
      = ∑ q ∈ Finset.range b, c0 q := by
  simp only [Finset.range_eq_Ico]
  exact Finset.sum_Ico_consecutive c0 (Nat.zero_le a) h

/-- The gather dispatch leaves every cell that is not a trailing stride cell
unchanged. -/
theorem radix_gather_off (g s m : ℕ) (c : ℕ → ℕ) (i : ℕ)
    (h : ¬(i < m ∧ (i + 1) % s = 0)) : radix_gather g s m c i = c i := by
  unfold radix_gather
  exact if_neg h

/-- Given the stride-`s` trailing cells of the counts buffer hold the
stride-`s` block sums of an abstract input `c0`, the gather dispatch writes,
at the trailing cell of block `j`, the sum of `c0` from the start of block
`j`'s group to the end of block `j`. -/
theorem radix_gather_stride (g s m : ℕ) (c c0 : ℕ → ℕ) (hs : 1 ≤ s)
    (H : ∀ p, p < m → (p + 1) % s = 0 →
      c p = ∑ q ∈ Finset.Ico (p + 1 - s) (p + 1), c0 q)
    (j : ℕ) (hj : (j + 1) * s - 1 < m) :
    radix_gather g s m c ((j + 1) * s - 1)
      = ∑ q ∈ Finset.Ico (j / g * g * s) ((j + 1) * s), c0 q := by
  have hpos : 0 < (j + 1) * s := by positivity
  have hmod : ((j + 1) * s - 1 + 1) % s = 0 := by
    rw [Nat.sub_add_cancel hpos, Nat.mul_mod_left]
  unfold radix_gather
  rw [if_pos ⟨hj, hmod⟩]
  have hdiv : ((j + 1) * s - 1 + 1) / s - 1 = j := by
    rw [Nat.sub_add_cancel hpos, Nat.mul_div_cancel _ hs]
    omega
  rw [hdiv]
  have hblocks : ∀ k, k ∈ Finset.Icc (j / g * g) j →
      c ((k + 1) * s - 1) = ∑ q ∈ Finset.Ico (k * s) ((k + 1) * s), c0 q := by
    intro k hk
    rw [Finset.mem_Icc] at hk
    have hposk : 0 < (k + 1) * s := by positivity
    have hk1 : (k + 1) * s - 1 < m := by
      have : (k + 1) * s ≤ (j + 1) * s := Nat.mul_le_mul_right s (by omega)
      omega
    have hkm : ((k + 1) * s - 1 + 1) % s = 0 := by
      rw [Nat.sub_add_cancel hposk, Nat.mul_mod_left]
    have := H ((k + 1) * s - 1) hk1 hkm
    rw [this, Nat.sub_add_cancel hposk]
    congr 1
    rw [Nat.add_mul, one_mul, Nat.add_sub_cancel]
  rw [Finset.sum_congr rfl hblocks]
  have hle : j / g * g ≤ j := Nat.div_mul_le_self j g
  have hfin : Finset.Icc (j / g * g) j
      = Finset.Ico (j / g * g) (j / g * g + (j + 1 - j / g * g)) := by
    rw [← Nat.Ico_succ_right]
    congr 1
    omega
  rw [hfin, sum_blocks]
  have harg : j / g * g + (j + 1 - j / g * g) = j + 1 := by omega
  rw [harg]

/-- At the base level (`step * g` ≥ range), every virtual index lies in group
0, so `propagate_val` reduces to the snapshotted in-group partial sum, which
is the exclusive prefix sum for the block start. -/
theorem propagate_val_base (g s m : ℕ) (hs : 1 ≤ s) (hbase : m ≤ s * g)
    (c c0 : ℕ → ℕ)
    (H : ∀ p, p < m → (p + 1) % s = 0 →
      c p = ∑ q ∈ Finset.Ico (p + 1 - s) (p + 1), c0 q)
    (j : ℕ) (hjm : j * s < m) :
    propagate_val g s m (radix_gather g s m c) j
      = ∑ q ∈ Finset.range (j * s), c0 q := by
  have hg0 : 0 < g := by
    rcases Nat.eq_zero_or_pos g with h | h
    · subst h; simp at hbase; omega
    · exact h
  have hjg : j < g := by
    by_contra hge
    push_neg at hge
    have h1 : g * s ≤ j * s := Nat.mul_le_mul_right s hge
    rw [Nat.mul_comm g s] at h1
    omega
  have hJ : j / g = 0 := Nat.div_eq_of_lt hjg
  have hjmod : j % g = j := Nat.mod_eq_of_lt hjg
  unfold propagate_val
  rw [hJ, if_pos rfl, hjmod]
  rcases Nat.eq_zero_or_pos j with hj0 | hjpos
  · subst hj0; simp
  · rw [if_neg (by omega)]
    have hq : j * s - 1 = (j - 1 + 1) * s - 1 := by
      congr 2
      omega
    rw [hq, radix_gather_stride g s m c c0 hs H (j - 1) (by rw [← hq]; omega)]
    have hJ1 : (j - 1) / g = 0 := Nat.div_eq_of_lt (by omega)
    rw [hJ1]
    simp only [Nat.zero_mul, Finset.range_eq_Ico]
    have : (j - 1 + 1) * s = j * s := by
      congr 1
      omega
    rw [this, Nat.add_zero]

/-- The base case of the scan-recursion contract: when no coarser level
exists, gather + snapshot + propagate already resolve every written cell to
the exclusive prefix sum of its block start, and no other cell changes. -/
theorem base_level (g s m : ℕ) (hs : 1 ≤ s) (hbase : m ≤ s * g)
    (c c0 : ℕ → ℕ)
    (H : ∀ p, p < m → (p + 1) % s = 0 →
      c p = ∑ q ∈ Finset.Ico (p + 1 - s) (p + 1), c0 q) :
    (∀ p, p < m → (p + 1) % s = 0 →
      radix_propagate g s m (radix_gather g s m c) (radix_gather g s m c) p
        = ∑ q ∈ Finset.range (p + 1 - s), c0 q) ∧
    (0 < m → m % s ≠ 0 →
      radix_propagate g s m (radix_gather g s m c) (radix_gather g s m c) (m - 1)
        = ∑ q ∈ Finset.range (s * ((m - 1) / s)), c0 q) ∧
    (∀ p, p < m → (p + 1) % s ≠ 0 → p + 1 ≠ m →
      radix_propagate g s m (radix_gather g s m c) (radix_gather g s m c) p = c p) ∧
    (∀ p, p < m → (p + 1) % s ≠ 0 → p + 1 ≠ m → radix_gather g s m c p = c p) := by
  refine ⟨?_, ?_, ?_, ?_⟩
  · intro p hp hmod
    have hsdvd : s ∣ p + 1 := Nat.dvd_of_mod_eq_zero hmod
    have hsle : s ≤ p + 1 := Nat.le_of_dvd (by omega) hsdvd
    have hjs : ((p + 1) / s - 1) * s = p + 1 - s := by
      rw [Nat.sub_mul, Nat.div_mul_cancel hsdvd, one_mul]
    unfold radix_propagate
    rw [if_pos ⟨hp, hmod⟩,
      propagate_val_base g s m hs hbase c c0 H _ (by rw [hjs]; omega), hjs]
  · intro hm hmod
    unfold radix_propagate
    rw [if_neg (by
      rintro ⟨-, hcon⟩
      rw [Nat.sub_add_cancel hm] at hcon
      exact hmod hcon),
      if_pos (Nat.sub_add_cancel hm),
      propagate_val_base g s m hs hbase c c0 H _
        (by have := Nat.div_mul_le_self (m - 1) s; omega)]
    rw [Nat.mul_comm]
  · intro p hp hmod hne
    unfold radix_propagate
    rw [if_neg (by rintro ⟨-, h⟩; exact hmod h), if_neg (by omega)]
    exact radix_gather_off g s m c p (by rintro ⟨-, h⟩; exact hmod h)
  · intro p hp hmod hne
    exact radix_gather_off g s m c p (by rintro ⟨-, h⟩; exact hmod h)

/-- In the recursive situation, `propagate_val` at virtual index `j` combines
the coarser level's already-resolved offset for `j`'s group (read from the
current buffer `R1` returned by the recursive call at stride `s * g`) with
the snapshotted in-group partial sum, and yields the exclusive prefix sum for
`j`'s block start. -/
theorem propagate_val_rec (g s m : ℕ) (hg : 2 ≤ g) (hs : 1 ≤ s)
    (c c0 R1 : ℕ → ℕ)
    (H : ∀ p, p < m → (p + 1) % s = 0 →
      c p = ∑ q ∈ Finset.Ico (p + 1 - s) (p + 1), c0 q)
    (hO1a : ∀ p, p < m → (p + 1) % (s * g) = 0 →
      R1 p = ∑ q ∈ Finset.range (p + 1 - s * g), c0 q)
    (hO1b : 0 < m → m % (s * g) ≠ 0 →
      R1 (m - 1) = ∑ q ∈ Finset.range (s * g * ((m - 1) / (s * g))), c0 q)
    (hO2 : ∀ p, p < m → (p + 1) % (s * g) ≠ 0 → p + 1 ≠ m →
      R1 p = radix_gather g s m c p)
    (j : ℕ) (hjm : j * s < m) :
    propagate_val g s m R1 j = ∑ q ∈ Finset.range (j * s), c0 q := by
  have hg0 : 0 < g := by omega
  have hdm2 : j / g * g + j % g = j := by
    rw [Nat.mul_comm (j / g) g]
    exact Nat.div_add_mod j g
  have hrlt : j % g < g := Nat.mod_lt j hg0
  have hJgs : j / g * g * s ≤ j * s := Nat.mul_le_mul_right s (by omega)
  have hsg0 : 0 < s * g := by positivity
  have hloc : (if j % g = 0 then 0 else R1 (j * s - 1))
      = ∑ q ∈ Finset.Ico (j / g * g * s) (j * s), c0 q := by
    by_cases hr : j % g = 0
    · rw [if_pos hr]
      have : j / g * g * s = j * s := by
        have : j / g * g = j := by omega
        rw [this]
      rw [this, Finset.Ico_self, Finset.sum_empty]
    · rw [if_neg hr]
      have hj1 : 1 ≤ j := by omega
      have hsj : s ≤ j * s := by
        have := Nat.mul_le_mul_right s hj1
        rwa [one_mul] at this
      have hjs_mod : j * s % (s * g) = j % g * s := by
        have hexp : j * s = s * g * (j / g) + j % g * s := by
          nth_rewrite 1 [← hdm2]
          ring
        rw [hexp, Nat.mul_add_mod]
        apply Nat.mod_eq_of_lt
        have h1 : (j % g + 1) * s ≤ g * s := Nat.mul_le_mul_right s (by omega)
        rw [Nat.add_mul, one_mul] at h1
        rw [Nat.mul_comm s g]
        omega
      have hrs_pos : 0 < j % g * s := by
        have := Nat.mul_le_mul_right s (show 1 ≤ j % g by omega)
        rw [one_mul] at this
        omega
      rw [hO2 (j * s - 1) (by omega)
        (by rw [Nat.sub_add_cancel (by omega), hjs_mod]; omega)
        (by rw [Nat.sub_add_cancel (by omega)]; omega)]
      have hq : j * s - 1 = (j - 1 + 1) * s - 1 := by
        congr 2
        omega
      rw [hq, radix_gather_stride g s m c c0 hs H (j - 1) (by rw [← hq]; omega)]
      have hj1div : (j - 1) / g = j / g := by
        rw [show j - 1 = j % g - 1 + j / g * g by omega,
          Nat.add_mul_div_right _ _ hg0, Nat.div_eq_of_lt (by omega), Nat.zero_add]
      rw [hj1div, show (j - 1 + 1) * s = j * s by congr 1; omega]
  have hoffs : (if j / g = 0 then 0
        else R1 (min ((j / g + 1) * (s * g) - 1) (m - 1)))
      = ∑ q ∈ Finset.range (j / g * g * s), c0 q := by
    by_cases hJ : j / g = 0
    · rw [if_pos hJ, hJ, Nat.zero_mul, Nat.zero_mul, Finset.range_zero,
        Finset.sum_empty]
    · rw [if_neg hJ]
      have hJgs_eq : j / g * (s * g) = j / g * g * s := by ring
      have hJsm : j / g * (s * g) < m := by
        rw [hJgs_eq]
        omega
      by_cases hcmp : (j / g + 1) * (s * g) - 1 < m
      · rw [min_eq_left (by omega)]
        have hpos1 : 0 < (j / g + 1) * (s * g) := by positivity
        rw [hO1a _ hcmp (by rw [Nat.sub_add_cancel hpos1, Nat.mul_mod_left]),
          Nat.sub_add_cancel hpos1]
        congr 1
        rw [Nat.add_mul, one_mul, Nat.add_sub_cancel, hJgs_eq]
      · rw [min_eq_right (by omega)]
        have hm0 : 0 < m := by omega
        have hmmod : m % (s * g) ≠ 0 := by
          intro hdvd
          have hK := Nat.div_add_mod m (s * g)
          rw [hdvd, Nat.add_zero] at hK
          have hlt1 : j / g * (s * g) < s * g * (m / (s * g)) := by omega
          have hlt2 : s * g * (m / (s * g)) < (j / g + 1) * (s * g) := by omega
          rw [Nat.mul_comm (s * g) (m / (s * g))] at hlt1 hlt2
          have := Nat.lt_of_mul_lt_mul_right hlt1
          have := Nat.lt_of_mul_lt_mul_right hlt2
          omega
        rw [hO1b hm0 hmmod]
        congr 1
        have hub : m - 1 < (j / g + 1) * (s * g) := by omega
        have hlb : j / g * (s * g) ≤ m - 1 := by omega
        have hdivJ : (m - 1) / (s * g) = j / g := by
          apply Nat.le_antisymm
          · have h2 : (m - 1) / (s * g) < j / g + 1 :=
              (Nat.div_lt_iff_lt_mul hsg0).mpr hub
            omega
          · exact (Nat.le_div_iff_mul_le hsg0).mpr hlb
        rw [hdivJ, Nat.mul_comm (s * g) (j / g), hJgs_eq]
  unfold propagate_val
  rw [hloc, hoffs, Nat.add_comm]
  exact range_add_Ico c0 _ _ hJgs

/-- Unfolding lemma for `prefix_sum` at zero fuel (the base shape). -/
theorem prefix_sum_zero (g m step : ℕ) (st : (ℕ → ℕ) × (ℕ → ℕ)) :
    prefix_sum g m 0 step st =
      (radix_propagate g step m (radix_gather g step m st.1)
        (radix_gather g step m st.1),
       radix_gather g step m st.1) := rfl

/-- Unfolding lemma for `prefix_sum` at positive fuel. -/
theorem prefix_sum_succ (g m fuel step : ℕ) (st : (ℕ → ℕ) × (ℕ → ℕ)) :
    prefix_sum g m (fuel + 1) step st =
      (radix_propagate g step m
        (if step * g < m then
            prefix_sum g m fuel (step * g) (radix_gather g step m st.1, st.2)
          else (radix_gather g step m st.1, radix_gather g step m st.1)).1
        (if step * g < m then
            prefix_sum g m fuel (step * g) (radix_gather g step m st.1, st.2)
          else (radix_gather g step m st.1, radix_gather g step m st.1)).2,
       (if step * g < m then
            prefix_sum g m fuel (step * g) (radix_gather g step m st.1, st.2)
          else (radix_gather g step m st.1, radix_gather g step m st.1)).1) := rfl

/-- The contract of the host scan recursion at stride `s`: with sufficient
fuel and the stride-`s` trailing cells of the input buffer holding the
stride-`s` block sums of an abstract input `c0`, the call returns a current
buffer whose owned cells (trailing stride cells, plus the clamped last cell)
hold the exclusive prefix sums of `c0` at their block starts, while both
returned buffers agree with the input buffer on all other cells. -/
theorem prefix_sum_contract (g m : ℕ) (hg : 2 ≤ g) (c0 : ℕ → ℕ) :
    ∀ fuel s c d, 1 ≤ s → m ≤ s * g ^ fuel →
    (∀ p, p < m → (p + 1) % s = 0 →
      c p = ∑ q ∈ Finset.Ico (p + 1 - s) (p + 1), c0 q) →
    (∀ p, p < m → (p + 1) % s = 0 →
      (prefix_sum g m fuel s (c, d)).1 p
        = ∑ q ∈ Finset.range (p + 1 - s), c0 q) ∧
    (0 < m → m % s ≠ 0 →
      (prefix_sum g m fuel s (c, d)).1 (m - 1)
        = ∑ q ∈ Finset.range (s * ((m - 1) / s)), c0 q) ∧
    (∀ p, p < m → (p + 1) % s ≠ 0 → p + 1 ≠ m →
      (prefix_sum g m fuel s (c, d)).1 p = c p) ∧
    (∀ p, p < m → (p + 1) % s ≠ 0 → p + 1 ≠ m →
      (prefix_sum g m fuel s (c, d)).2 p = c p) := by
  intro fuel
  induction fuel with
  | zero =>
    intro s c d hs hfuel H
    have hbase : m ≤ s * g := by
      rw [pow_zero, Nat.mul_one] at hfuel
      have : s * 1 ≤ s * g := Nat.mul_le_mul_left s (by omega)
      omega
    rw [prefix_sum_zero]
    exact base_level g s m hs hbase c c0 H
  | succ fuel ih =>
    intro s c d hs hfuel H
    rw [prefix_sum_succ]
    by_cases hrec : s * g < m
    · simp only [if_pos hrec]
      have hg0 : 0 < g := by omega
      have hsg0 : 0 < s * g := by positivity
      have hfuel2 : m ≤ s * g * g ^ fuel := by
        calc m ≤ s * g ^ (fuel + 1) := hfuel
          _ = s * g * g ^ fuel := by ring
      have H2 : ∀ p, p < m → (p + 1) % (s * g) = 0 →
          radix_gather g s m c p
            = ∑ q ∈ Finset.Ico (p + 1 - s * g) (p + 1), c0 q := by
        intro p hp hmod
        obtain ⟨K, hK⟩ := Nat.dvd_of_mod_eq_zero hmod
        have hK1 : 1 ≤ K := by
          rcases Nat.eq_zero_or_pos K with h0 | h
          · subst h0; omega
          · exact h
        have hKg : 1 ≤ K * g := by
          have := Nat.mul_le_mul hK1 (show 1 ≤ g by omega)
          omega
        have hKgs : K * g * s = p + 1 := by
          rw [hK]; ring
        have hstride : (K * g - 1 + 1) * s - 1 = p := by
          rw [show K * g - 1 + 1 = K * g by omega, hKgs]
          omega
        have hpm : (K - 1) * g = K * g - g := Nat.sub_one_mul K g
        have hgKg : g ≤ K * g := by
          have := Nat.mul_le_mul_right g hK1
          rw [one_mul] at this
          omega
        have hdivK : (K * g - 1) / g = K - 1 := by
          rw [show K * g - 1 = g - 1 + (K - 1) * g by omega,
            Nat.add_mul_div_right _ _ hg0, Nat.div_eq_of_lt (by omega),
            Nat.zero_add]
        have hlhs : (K - 1) * g * s = p + 1 - s * g := by
          rw [hpm, Nat.sub_mul, hKgs]
          congr 1
          ring
        have hval := radix_gather_stride g s m c c0 hs H (K * g - 1)
          (by rw [hstride]; omega)
        rw [hstride, hdivK, hlhs, show (K * g - 1 + 1) * s = p + 1 by
          rw [show K * g - 1 + 1 = K * g by omega, hKgs]] at hval
        exact hval
      obtain ⟨ih1, ih2, ih3, ih4⟩ :=
        ih (s * g) (radix_gather g s m c) d (by omega) hfuel2 H2
      refine ⟨?_, ?_, ?_, ?_⟩
      · intro p hp hmod
        have hsdvd : s ∣ p + 1 := Nat.dvd_of_mod_eq_zero hmod
        have hsle : s ≤ p + 1 := Nat.le_of_dvd (by omega) hsdvd
        have hjs : ((p + 1) / s - 1) * s = p + 1 - s := by
          rw [Nat.sub_mul, Nat.div_mul_cancel hsdvd, one_mul]
        show radix_propagate g s m _ _ p = _
        unfold radix_propagate
        rw [if_pos ⟨hp, hmod⟩,
          propagate_val_rec g s m hg hs c c0 _ H ih1 ih2 ih3 _
            (by rw [hjs]; omega), hjs]
      · intro hm hmod
        show radix_propagate g s m _ _ (m - 1) = _
        unfold radix_propagate
        rw [if_neg (by
            rintro ⟨-, hcon⟩
            rw [Nat.sub_add_cancel hm] at hcon
            exact hmod hcon),
          if_pos (Nat.sub_add_cancel hm),
          propagate_val_rec g s m hg hs c c0 _ H ih1 ih2 ih3 _
            (by have := Nat.div_mul_le_self (m - 1) s; omega)]
        rw [Nat.mul_comm]
      · intro p hp hmod hne
        have hmod2 : (p + 1) % (s * g) ≠ 0 := by
          intro hcon
          have hdvd : s ∣ p + 1 :=
            (dvd_mul_right s g).trans (Nat.dvd_of_mod_eq_zero hcon)
          exact hmod (Nat.mod_eq_zero_of_dvd hdvd)
        show radix_propagate g s m _ _ p = c p
        unfold radix_propagate
        rw [if_neg (by rintro ⟨-, h⟩; exact hmod h), if_neg (by omega),
          ih4 p hp hmod2 hne]
        exact radix_gather_off g s m c p (by rintro ⟨-, h⟩; exact hmod h)
      · intro p hp hmod hne
        have hmod2 : (p + 1) % (s * g) ≠ 0 := by
          intro hcon
          have hdvd : s ∣ p + 1 :=
            (dvd_mul_right s g).trans (Nat.dvd_of_mod_eq_zero hcon)
          exact hmod (Nat.mod_eq_zero_of_dvd hdvd)
        show (prefix_sum g m fuel (s * g) (radix_gather g s m c, d)).1 p = c p
        rw [ih3 p hp hmod2 hne]
        exact radix_gather_off g s m c p (by rintro ⟨-, h⟩; exact hmod h)
    · simp only [if_neg hrec]
      exact base_level g s m hs (by omega) c c0 H

/-- After the top-level `prefix_sum(1)` returns, the current counts buffer
holds the exclusive prefix sum of the input, at every cell of the valid
range, for every group size at least 2. -/
theorem scanTop_correct (g m : ℕ) (hg : 2 ≤ g) (c : ℕ → ℕ) :
    ∀ p, p < m → scanTop g m c p = ∑ q ∈ Finset.range p, c q := by
  intro p hp
  have hfuel : m ≤ 1 * g ^ m := by
    rw [one_mul]
    calc m ≤ 2 ^ m := Nat.le_of_lt (Nat.lt_two_pow m)
      _ ≤ g ^ m := Nat.pow_le_pow_left hg m
  have H1 : ∀ p, p < m → (p + 1) % 1 = 0 →
      c p = ∑ q ∈ Finset.Ico (p + 1 - 1) (p + 1), c q := by
    intro p hp _
    rw [Nat.add_sub_cancel, Nat.Ico_succ_singleton, Finset.sum_singleton]
  obtain ⟨h1, -, -, -⟩ :=
    prefix_sum_contract g m hg c m 1 c (fun _ => 0) (le_refl 1) hfuel H1
  have := h1 p hp (Nat.mod_one (p + 1))
  rwa [Nat.add_sub_cancel] at this

/-! ### Counting toolbox -/

theorem bitOf_lt_two (k b : ℕ) : bitOf k b < 2 := Nat.mod_lt _ (by omega)

theorem count1_zero (keys : List ℕ) (b : ℕ) : count1 keys b 0 = 0 := rfl

theorem count0_zero (keys : List ℕ) (b : ℕ) : count0 keys b 0 = 0 := rfl

theorem count1_cons (k : ℕ) (ks : List ℕ) (b i : ℕ) :
    count1 (k :: ks) b (i + 1) = bitOf k b + count1 ks b i := by
  unfold count1
  rw [List.take_succ_cons, List.filter_cons]
  have h2 := bitOf_lt_two k b
  by_cases hb : bitOf k b = 1
  · simp [hb]
    omega
  · have hb0 : bitOf k b = 0 := by omega
    simp [hb0]

theorem count0_cons (k : ℕ) (ks : List ℕ) (b i : ℕ) :
    count0 (k :: ks) b (i + 1) = (1 - bitOf k b) + count0 ks b i := by
  unfold count0
  rw [List.take_succ_cons, List.filter_cons]
  have h2 := bitOf_lt_two k b
  by_cases hb : bitOf k b = 0
  · simp [hb]
    omega
  · have hb1 : bitOf k b = 1 := by omega
    simp [hb1]

theorem count0_add_count1 (keys : List ℕ) (b : ℕ) :
    ∀ i, i ≤ keys.length → count0 keys b i + count1 keys b i = i := by
  induction keys with
  | nil =>
    intro i hi
    have : i = 0 := by simpa using hi
    subst this
    rfl
  | cons k ks ih =>
    intro i hi
    cases i with
    | zero => rfl
    | succ i =>
      rw [count0_cons, count1_cons]
      have h2 := bitOf_lt_two k b
      have := ih i (by simpa using hi)
      omega

theorem count1_stable (keys : List ℕ) (b : ℕ) (i : ℕ) (hi : keys.length ≤ i) :
    count1 keys b i = count1 keys b keys.length := by
  unfold count1
  rw [List.take_of_length_le hi, List.take_length]

theorem count0_stable (keys : List ℕ) (b : ℕ) (i : ℕ) (hi : keys.length ≤ i) :
    count0 keys b i = count0 keys b keys.length := by
  unfold count0
  rw [List.take_of_length_le hi, List.take_length]

theorem count1_le (keys : List ℕ) (b i : ℕ) : count1 keys b i ≤ i := by
  by_cases hi : i ≤ keys.length
  · have := count0_add_count1 keys b i hi
    omega
  · rw [count1_stable keys b i (by omega)]
    have := count0_add_count1 keys b keys.length (le_refl _)
    omega

theorem count0_le (keys : List ℕ) (b i : ℕ) : count0 keys b i ≤ i := by
  by_cases hi : i ≤ keys.length
  · have := count0_add_count1 keys b i hi
    omega
  · rw [count0_stable keys b i (by omega)]
    have := count0_add_count1 keys b keys.length (le_refl _)
    omega

theorem count1_succ (keys : List ℕ) (b i : ℕ) (hi : i < keys.length) :
    count1 keys b (i + 1) = count1 keys b i + bitOf (keysFun keys i) b := by
  unfold count1
  rw [List.take_succ, List.getElem?_eq_getElem hi]
  simp only [Option.toList_some, List.filter_append, List.length_append]
  have h2 := bitOf_lt_two (keys[i]) b
  have hkf : keysFun keys i = keys[i] := by
    unfold keysFun
    rw [List.getD_eq_getElem?_getD, List.getElem?_eq_getElem hi]
    rfl
  rw [hkf]
  by_cases hb : bitOf (keys[i]) b = 1
  · simp [List.filter_cons, hb]
  · have hb0 : bitOf (keys[i]) b = 0 := by omega
    simp [List.filter_cons, hb0]

theorem count0_succ (keys : List ℕ) (b i : ℕ) (hi : i < keys.length) :
    count0 keys b (i + 1) = count0 keys b i + (1 - bitOf (keysFun keys i) b) := by
  unfold count0
  rw [List.take_succ, List.getElem?_eq_getElem hi]
  simp only [Option.toList_some, List.filter_append, List.length_append]
  have h2 := bitOf_lt_two (keys[i]) b
  have hkf : keysFun keys i = keys[i] := by
    unfold keysFun
    rw [List.getD_eq_getElem?_getD, List.getElem?_eq_getElem hi]
    rfl
  rw [hkf]
  by_cases hb : bitOf (keys[i]) b = 0
  · simp [List.filter_cons, hb]
  · have hb1 : bitOf (keys[i]) b = 1 := by omega
    simp [List.filter_cons, hb1]

theorem count1_mono (keys : List ℕ) (b : ℕ) :
    ∀ i j, i ≤ j → count1 keys b i ≤ count1 keys b j := by
  have hstep : ∀ i, count1 keys b i ≤ count1 keys b (i + 1) := by
    intro i
    by_cases hi : i < keys.length
    · rw [count1_succ keys b i hi]
      omega
    · rw [count1_stable keys b i (by omega),
        count1_stable keys b (i + 1) (by omega)]
  intro i j hij
  induction j, hij using Nat.le_induction with
  | base => exact le_refl _
  | succ j hij ih => exact le_trans ih (hstep j)

theorem count0_mono (keys : List ℕ) (b : ℕ) :
    ∀ i j, i ≤ j → count0 keys b i ≤ count0 keys b j := by
  have hstep : ∀ i, count0 keys b i ≤ count0 keys b (i + 1) := by
    intro i
    by_cases hi : i < keys.length
    · rw [count0_succ keys b i hi]
      omega
    · rw [count0_stable keys b i (by omega),
        count0_stable keys b (i + 1) (by omega)]
  intro i j hij
  induction j, hij using Nat.le_induction with
  | base => exact le_refl _
  | succ j hij ih => exact le_trans ih (hstep j)

theorem count1_total (keys : List ℕ) (b : ℕ) :
    count1 keys b keys.length
      = (keys.filter (fun k => bitOf k b == 1)).length := by
  unfold count1
  rw [List.take_length]

theorem count0_total (keys : List ℕ) (b : ℕ) :
    count0 keys b keys.length
      = (keys.filter (fun k => bitOf k b == 0)).length := by
  unfold count0
  rw [List.take_length]

/-- The scanned counts buffer of a pass agrees with `count1` on the whole
valid range `[0, n]`: cell `i` holds the number of keys among the first `i`
whose bit `b` is set. -/
theorem scan_setup_eq_count1 (g : ℕ) (hg : 2 ≤ g) (keys : List ℕ) (b : ℕ) :
    ∀ i, i ≤ keys.length →
      scanTop g (keys.length + 1) (radix_setup keys b) i = count1 keys b i := by
  intro i hi
  rw [scanTop_correct g (keys.length + 1) hg _ i (by omega)]
  induction i with
  | zero => rfl
  | succ i ih =>
    rw [Finset.sum_range_succ, ih (by omega), count1_succ keys b i (by omega)]
    congr 1
    unfold radix_setup
    rw [if_pos (by omega)]
    rfl

/-! ### The scatter stage: write-fold machinery -/

theorem gapAt_inj (q a b : ℕ) (h : gapAt q a = gapAt q b) : a = b := by
  unfold gapAt at h
  split at h <;> split at h <;> omega

theorem gapAt_ne (q d : ℕ) : gapAt q d ≠ q := by
  unfold gapAt
  split <;> omega

/-- Unfolding `writeAll` at `n + 1` from the top (last write). -/
theorem writeAll_succ (n : ℕ) (dst src out : ℕ → ℕ) :
    writeAll (n + 1) dst src out
      = Function.update (writeAll n dst src out) (dst n) (src n) := by
  unfold writeAll
  rw [List.range_succ, List.foldl_append]
  rfl

/-- `writeAll` only depends on the restriction of `dst` and `src` to the
task range. -/
theorem writeAll_congr (n : ℕ) (dst dst2 src src2 out : ℕ → ℕ)
    (hd : ∀ i, i < n → dst i = dst2 i) (hs : ∀ i, i < n → src i = src2 i) :
    writeAll n dst src out = writeAll n dst2 src2 out := by
  induction n with
  | zero => rfl
  | succ n ih =>
    rw [writeAll_succ, writeAll_succ,
      ih (fun i h => hd i (by omega)) (fun i h => hs i (by omega)),
      hd n (by omega), hs n (by omega)]

/-- A write-fold whose destinations all avoid slot `q` leaves slot `q`
untouched. -/
theorem writeAll_gap_fix (n q : ℕ) (dst src A : ℕ → ℕ) :
    writeAll n (fun i => gapAt q (dst i)) src A q = A q := by
  induction n with
  | zero => rfl
  | succ n ih =>
    rw [writeAll_succ, Function.update_noteq (Ne.symm (gapAt_ne q (dst n)))]
    exact ih

/-- Reading a gap-shifted write-fold at a gap-shifted slot equals reading the
unshifted write-fold at the unshifted slot, whenever the initial buffers are
related the same way. -/
theorem writeAll_gap (n q : ℕ) (dst src A B : ℕ → ℕ)
    (hAB : ∀ p, A (gapAt q p) = B p) :
    ∀ p, writeAll n (fun i => gapAt q (dst i)) src A (gapAt q p)
      = writeAll n dst src B p := by
  induction n with
  | zero => exact hAB
  | succ n ih =>
    intro p
    rw [writeAll_succ, writeAll_succ]
    by_cases hp : dst n = p
    · subst hp
      rw [Function.update_same, Function.update_same]
    · rw [Function.update_noteq (fun hcon => hp ((gapAt_inj q _ _ hcon).symm)),
        Function.update_noteq (fun hcon => hp hcon.symm)]
      exact ih p

/-- Extracting the written range of a gap-shifted write-fold (with slot `q`
pre-loaded with `k0`) inserts `k0` at position `q` into the extraction of the
unshifted write-fold. -/
theorem map_range_writeAll_gap (n q k0 : ℕ) (dst src : ℕ → ℕ) (hq : q ≤ n) :
    (List.range (n + 1)).map
        (writeAll n (fun i => gapAt q (dst i)) src
          (Function.update (fun _ => 0) q k0))
      = List.insertIdx q k0
          ((List.range n).map (writeAll n dst src (fun _ => 0))) := by
  have hAB : ∀ p, Function.update (fun _ => (0 : ℕ)) q k0 (gapAt q p)
      = (fun _ => (0 : ℕ)) p := by
    intro p
    exact Function.update_noteq (gapAt_ne q p) _ _
  have hlenW : ((List.range n).map (writeAll n dst src (fun _ => 0))).length = n := by
    rw [List.length_map, List.length_range]
  apply List.ext_getElem
  · rw [List.length_map, List.length_range, List.length_insertIdx _ _ (by omega)]
    omega
  · intro d hd1 hd2
    rw [List.length_map, List.length_range] at hd1
    rw [List.getElem_map, List.getElem_range]
    rcases Nat.lt_trichotomy d q with hlt | heq | hgt
    · have hdn : d < n := by omega
      have hgap : gapAt q d = d := by unfold gapAt; rw [if_pos hlt]
      rw [show writeAll n (fun i => gapAt q (dst i)) src
            (Function.update (fun _ => 0) q k0) d
          = writeAll n (fun i => gapAt q (dst i)) src
            (Function.update (fun _ => 0) q k0) (gapAt q d) by rw [hgap],
        writeAll_gap n q dst src _ _ hAB d,
        List.getElem_insertIdx_of_lt _ _ _ _ hlt (by omega)]
      rw [List.getElem_map, List.getElem_range]
    · subst heq
      rw [writeAll_gap_fix, Function.update_same,
        List.getElem_insertIdx_self _ _ _ (by omega)]
    · obtain ⟨t, rfl⟩ : ∃ t, d = q + t + 1 := ⟨d - q - 1, by omega⟩
      have hgap : gapAt q (q + t) = q + t + 1 := by
        unfold gapAt
        rw [if_neg (by omega)]
      rw [show writeAll n (fun i => gapAt q (dst i)) src
            (Function.update (fun _ => 0) q k0) (q + t + 1)
          = writeAll n (fun i => gapAt q (dst i)) src
            (Function.update (fun _ => 0) q k0) (gapAt q (q + t))
          by rw [hgap],
        writeAll_gap n q dst src _ _ hAB,
        List.getElem_insertIdx_add_succ _ _ _ _ (by omega)]
      rw [List.getElem_map, List.getElem_range]

theorem keysFun_cons_succ (k : ℕ) (ks : List ℕ) (i : ℕ) :
    keysFun (k :: ks) (i + 1) = keysFun ks i := rfl

theorem keysFun_cons_zero (k : ℕ) (ks : List ℕ) : keysFun (k :: ks) 0 = k := rfl

theorem destC_cons_zero (k : ℕ) (ks : List ℕ) (b : ℕ) :
    destC (k :: ks) b 0
      = (if bitOf k b = 0 then 0 else ks.length - count1 ks b ks.length) := by
  unfold destC radix_move_dest
  beta_reduce
  rw [keysFun_cons_zero]
  have hT : count1 ks b ks.length ≤ ks.length := count1_le ks b ks.length
  have hlen : (k :: ks).length = ks.length + 1 := rfl
  have hcnt0 : count1 (k :: ks) b 0 = 0 := rfl
  have hcntN : count1 (k :: ks) b (ks.length + 1)
      = bitOf k b + count1 ks b ks.length := count1_cons k ks b ks.length
  have h2 := bitOf_lt_two k b
  by_cases hb : bitOf k b = 0
  · rw [if_pos hb, if_pos hb, hcnt0]
  · rw [if_neg hb, if_neg hb, hcnt0, hlen, hcntN]
    omega

theorem destC_cons_succ (k : ℕ) (ks : List ℕ) (b i : ℕ) (hi : i < ks.length) :
    destC (k :: ks) b (i + 1)
      = gapAt (if bitOf k b = 0 then 0 else ks.length - count1 ks b ks.length)
          (destC ks b i) := by
  unfold destC radix_move_dest gapAt
  beta_reduce
  rw [keysFun_cons_succ]
  have hT : count1 ks b ks.length ≤ ks.length := count1_le ks b ks.length
  have hc1 : count1 ks b i ≤ i := count1_le ks b i
  have hlen : (k :: ks).length = ks.length + 1 := rfl
  have hcntI : count1 (k :: ks) b (i + 1) = bitOf k b + count1 ks b i :=
    count1_cons k ks b i
  have hcntN : count1 (k :: ks) b (ks.length + 1)
      = bitOf k b + count1 ks b ks.length := count1_cons k ks b ks.length
  have h2k := bitOf_lt_two k b
  have h2e := bitOf_lt_two (keysFun ks i) b
  rw [hlen, hcntI, hcntN]
  by_cases hbe : bitOf (keysFun ks i) b = 0
  · rw [if_pos hbe, if_pos hbe]
    by_cases hbk : bitOf k b = 0
    · rw [if_pos hbk, hbk, if_neg (by omega)]
      omega
    · have hbk1 : bitOf k b = 1 := by omega
      rw [if_neg hbk, hbk1]
      have hrank : i - count1 ks b i < ks.length - count1 ks b ks.length := by
        have hid : count0 ks b i + count1 ks b i = i :=
          count0_add_count1 ks b i (by omega)
        have hidN : count0 ks b ks.length + count1 ks b ks.length = ks.length :=
          count0_add_count1 ks b ks.length (le_refl _)
        have hsucc : count0 ks b (i + 1)
            = count0 ks b i + (1 - bitOf (keysFun ks i) b) :=
          count0_succ ks b i hi
        have hmono : count0 ks b (i + 1) ≤ count0 ks b ks.length :=
          count0_mono ks b (i + 1) ks.length (by omega)
        rw [hbe] at hsucc
        omega
      rw [if_pos hrank]
      omega
  · rw [if_neg hbe, if_neg hbe]
    by_cases hbk : bitOf k b = 0
    · rw [if_pos hbk, hbk, if_neg (by omega)]
      omega
    · have hbk1 : bitOf k b = 1 := by omega
      rw [if_neg hbk, hbk1, if_neg (by omega)]
      omega

/-- Inserting at the length of the left part of an append. -/
theorem insertIdx_length_append (l1 l2 : List ℕ) (x : ℕ) :
    List.insertIdx l1.length x (l1 ++ l2) = l1 ++ x :: l2 := by
  induction l1 with
  | nil => rfl
  | cons a l ih =>
    simp only [List.length_cons, List.cons_append, List.insertIdx_succ_cons, ih]

/-- The stable partition after prepending `k` is the stable partition of the
tail with `k` inserted at its destination slot. -/
theorem stablePartition_cons (k : ℕ) (ks : List ℕ) (b : ℕ) :
    stablePartition (k :: ks) b
      = List.insertIdx (if bitOf k b = 0 then 0 else ks.length - count1 ks b ks.length)
          k (stablePartition ks b) := by
  have h2 := bitOf_lt_two k b
  by_cases hb : bitOf k b = 0
  · rw [if_pos hb, List.insertIdx_zero]
    unfold stablePartition
    rw [List.filter_cons, List.filter_cons, hb]
    simp
  · have hb1 : bitOf k b = 1 := by omega
    have hq : ks.length - count1 ks b ks.length
        = (ks.filter (fun x => bitOf x b == 0)).length := by
      have hidN : count0 ks b ks.length + count1 ks b ks.length = ks.length :=
        count0_add_count1 ks b ks.length (le_refl _)
      rw [← count0_total]
      omega
    rw [if_neg hb, hq]
    unfold stablePartition
    rw [List.filter_cons, List.filter_cons, hb1, insertIdx_length_append]
    simp

/-- Prepending one write to a write-fold. -/
theorem writeAll_succ_front (n : ℕ) (dst src out : ℕ → ℕ) :
    writeAll (n + 1) dst src out
      = writeAll n (fun i => dst (i + 1)) (fun i => src (i + 1))
          (Function.update out (dst 0) (src 0)) := by
  unfold writeAll
  rw [List.range_succ_eq_map, List.foldl_cons, List.foldl_map]

/-- The scatter stage of a pass, with resolved counts, produces exactly the
stable partition of the keys by bit `b`. -/
theorem scatter_eq_stablePartition (keys : List ℕ) (b : ℕ) :
    (List.range keys.length).map
        (writeAll keys.length (destC keys b) (keysFun keys) (fun _ => 0))
      = stablePartition keys b := by
  induction keys with
  | nil => rfl
  | cons k ks ih =>
    have hT : count1 ks b ks.length ≤ ks.length := count1_le ks b ks.length
    have hlen : (k :: ks).length = ks.length + 1 := rfl
    rw [hlen, writeAll_succ_front]
    rw [writeAll_congr ks.length _
        (fun i => gapAt (if bitOf k b = 0 then 0
            else ks.length - count1 ks b ks.length) (destC ks b i))
        _ (keysFun ks) _
        (fun i hi => destC_cons_succ k ks b i hi)
        (fun i hi => keysFun_cons_succ k ks i)]
    rw [show destC (k :: ks) b 0
        = (if bitOf k b = 0 then 0 else ks.length - count1 ks b ks.length)
        from destC_cons_zero k ks b,
      show keysFun (k :: ks) 0 = k from rfl]
    rw [map_range_writeAll_gap ks.length _ k (destC ks b) (keysFun ks)
        (by split <;> omega)]
    rw [ih, stablePartition_cons]

/-! ### Pass-level and sort-level correctness -/

/-- With the scanned counts buffer in place, the destination map of the
scatter dispatch coincides with the resolved destination map `destC`. -/
theorem dest_eq_destC (g : ℕ) (hg : 2 ≤ g) (keys : List ℕ) (b : ℕ) :
    ∀ i, i < keys.length →
      radix_move_dest keys.length (keysFun keys)
        (scanTop g (keys.length + 1) (radix_setup keys b)) b i
      = destC keys b i := by
  intro i hi
  unfold radix_move_dest
  rw [scan_setup_eq_count1 g hg keys b i (by omega),
    scan_setup_eq_count1 g hg keys b keys.length (le_refl _)]
  rfl

/-- One full pass (counting, scan, scatter, swap) equals the stable
partition of the current keys by the pass bit. -/
theorem radix_pass_eq_stablePartition (g : ℕ) (hg : 2 ≤ g) (keys : List ℕ)
    (b : ℕ) : radix_pass g keys b = stablePartition keys b := by
  show (List.range keys.length).map
      (radix_move keys.length (keysFun keys)
        (scanTop g (keys.length + 1) (radix_setup keys b)) b)
    = stablePartition keys b
  unfold radix_move
  rw [writeAll_congr keys.length _ (destC keys b) _ (keysFun keys) _
    (dest_eq_destC g hg keys b) (fun i _ => rfl)]
  exact scatter_eq_stablePartition keys b

theorem sortPasses_succ (g : ℕ) (keys : List ℕ) (b : ℕ) :
    sortPasses g keys (b + 1) = radix_pass g (sortPasses g keys b) b := by
  unfold sortPasses
  rw [List.range_succ, List.foldl_append]
  rfl

theorem radix_sort_eq_sortPasses (g : ℕ) (keys : List ℕ) :
    radix_sort g keys = sortPasses g keys 32 := rfl

theorem pairwise_of_total {R : ℕ → ℕ → Prop} (h : ∀ a b : ℕ, R a b) :
    ∀ l : List ℕ, l.Pairwise R := by
  intro l
  induction l with
  | nil => exact List.Pairwise.nil
  | cons a l ih => exact List.Pairwise.cons (fun y _ => h a y) ih

/-- Splitting the low `b + 1` bits into the low `b` bits and bit `b`. -/
theorem mod_pow_succ_eq (k b : ℕ) :
    k % 2 ^ (b + 1) = k % 2 ^ b + 2 ^ b * bitOf k b := by
  rw [pow_succ]
  exact Nat.mod_mul

/-- The stable partition is a permutation of its input. -/
theorem stablePartition_perm (keys : List ℕ) (b : ℕ) :
    (stablePartition keys b).Perm keys := by
  unfold stablePartition
  have h1 : keys.filter (fun k => bitOf k b == 1)
      = keys.filter (fun x => !(bitOf x b == 0)) := by
    apply List.filter_congr
    intro x hx
    have h2 := bitOf_lt_two x b
    rcases (by omega : bitOf x b = 0 ∨ bitOf x b = 1) with h | h <;> rw [h] <;> rfl
  rw [h1]
  exact List.filter_append_perm _ keys

/-- A pass over bit `b` turns a list sorted by its low `b` bits into a list
sorted by its low `b + 1` bits. -/
theorem stablePartition_sorted (keys : List ℕ) (b : ℕ)
    (h : keys.Pairwise (fun x y => x % 2 ^ b ≤ y % 2 ^ b)) :
    (stablePartition keys b).Pairwise
      (fun x y => x % 2 ^ (b + 1) ≤ y % 2 ^ (b + 1)) := by
  have hmem0 : ∀ x, x ∈ keys.filter (fun k => bitOf k b == 0) → bitOf x b = 0 := by
    intro x hx
    have := (List.mem_filter.mp hx).2
    simpa using this
  have hmem1 : ∀ x, x ∈ keys.filter (fun k => bitOf k b == 1) → bitOf x b = 1 := by
    intro x hx
    have := (List.mem_filter.mp hx).2
    simpa using this
  unfold stablePartition
  rw [List.pairwise_append]
  refine ⟨?_, ?_, ?_⟩
  · refine List.Pairwise.imp_of_mem ?_ (h.filter _)
    intro x y hx hy hxy
    rw [mod_pow_succ_eq, mod_pow_succ_eq, hmem0 x hx, hmem0 y hy]
    simp only [Nat.mul_zero, Nat.add_zero]
    exact hxy
  · refine List.Pairwise.imp_of_mem ?_ (h.filter _)
    intro x y hx hy hxy
    rw [mod_pow_succ_eq, mod_pow_succ_eq, hmem1 x hx, hmem1 y hy]
    simp only [Nat.mul_one]
    omega
  · intro x hx y hy
    rw [mod_pow_succ_eq, mod_pow_succ_eq, hmem0 x hx, hmem1 y hy]
    have hlt : x % 2 ^ b < 2 ^ b := Nat.mod_lt x (by positivity)
    simp only [Nat.mul_zero, Nat.add_zero, Nat.mul_one]
    omega

/-- A pass over bit `b` does not reorder any class of keys on which bit `b`
is constant. -/
theorem stablePartition_filter_class (keys : List ℕ) (b : ℕ) (P : ℕ → Bool)
    (t : ℕ) (hP : ∀ k, P k = true → bitOf k b = t) :
    (stablePartition keys b).filter P = keys.filter P := by
  unfold stablePartition
  rw [List.filter_append]
  by_cases ht0 : t = 0
  · subst ht0
    have h1 : (keys.filter (fun k => bitOf k b == 1)).filter P = [] := by
      rw [List.filter_eq_nil_iff]
      intro a ha hPa
      have hbit : bitOf a b = 1 := by
        have := (List.mem_filter.mp ha).2
        simpa using this
      have := hP a hPa
      omega
    rw [h1, List.append_nil, List.filter_filter]
    apply List.filter_congr
    intro x hx
    by_cases hpx : P x = true
    · rw [hpx, hP x hpx]
      rfl
    · have hfx : P x = false := by
        rcases Bool.eq_false_or_eq_true (P x) with h | h
        · exact absurd h hpx
        · exact h
      rw [hfx]
      rfl
  · by_cases ht1 : t = 1
    · subst ht1
      have h1 : (keys.filter (fun k => bitOf k b == 0)).filter P = [] := by
        rw [List.filter_eq_nil_iff]
        intro a ha hPa
        have hbit : bitOf a b = 0 := by
          have := (List.mem_filter.mp ha).2
          simpa using this
        have := hP a hPa
        omega
      rw [h1, List.nil_append, List.filter_filter]
      apply List.filter_congr
      intro x hx
      by_cases hpx : P x = true
      · rw [hpx, hP x hpx]
        rfl
      · have hfx : P x = false := by
          rcases Bool.eq_false_or_eq_true (P x) with h | h
          · exact absurd h hpx
          · exact h
        rw [hfx]
        rfl
    · have hnone : ∀ k, P k = false := by
        intro k
        by_cases hpk : P k = true
        · have := hP k hpk
          have := bitOf_lt_two k b
          omega
        · rcases Bool.eq_false_or_eq_true (P k) with h | h
          · exact absurd h hpk
          · exact h
      have hempty : ∀ l : List ℕ, l.filter P = [] := by
        intro l
        rw [List.filter_eq_nil_iff]
        intro a _ hPa
        rw [hnone a] at hPa
        exact Bool.false_ne_true hPa
      rw [hempty, hempty, hempty]
      rfl

/-- The loop invariant of the 32-pass bit loop: after the passes for bits
`0 .. b-1`, the current key buffer is a permutation of the input, sorted by
its low `b` bits, and every class of keys with a fixed value of the low `b`
bits is still in its original relative order (stability with respect to the
untouched higher bits). -/
theorem sortPasses_invariant (g : ℕ) (hg : 2 ≤ g) (keys : List ℕ) :
    ∀ b, (sortPasses g keys b).Perm keys ∧
      (sortPasses g keys b).Pairwise (fun x y => x % 2 ^ b ≤ y % 2 ^ b) ∧
      (∀ (P : ℕ → Bool) (t : ℕ), (∀ k, P k = true → k % 2 ^ b = t) →
        (sortPasses g keys b).filter P = keys.filter P) := by
  intro b
  induction b with
  | zero =>
    refine ⟨List.Perm.refl _, pairwise_of_total (fun a b => ?_) _,
      fun P t hP => rfl⟩
    simp [Nat.mod_one]
  | succ b ih =>
    obtain ⟨ihp, ihs, ihf⟩ := ih
    rw [sortPasses_succ, radix_pass_eq_stablePartition g hg]
    refine ⟨(stablePartition_perm _ b).trans ihp,
      stablePartition_sorted _ b ihs, ?_⟩
    intro P t hP
    have hpow : (0 : ℕ) < 2 ^ b := by positivity
    have hbit : ∀ k, P k = true → bitOf k b = t / 2 ^ b := by
      intro k hk
      have h1 := hP k hk
      have h2 := mod_pow_succ_eq k b
      have h3 : k % 2 ^ b < 2 ^ b := Nat.mod_lt k hpow
      rw [← h1, h2, Nat.add_mul_div_left _ _ hpow, Nat.div_eq_of_lt h3,
        Nat.zero_add]
    rw [stablePartition_filter_class _ b P (t / 2 ^ b) hbit]
    refine ihf P (t % 2 ^ b) ?_
    intro k hk
    have h1 := hP k hk
    have hdvd : (2 : ℕ) ^ b ∣ 2 ^ (b + 1) := by
      rw [pow_succ]
      exact dvd_mul_right _ 2
    rw [← Nat.mod_mod_of_dvd k hdvd, h1]

/-! ### Bijectivity of the scatter destination map -/

theorem destC_zero_eq (keys : List ℕ) (b i : ℕ) (hi : i < keys.length)
    (h0 : bitOf (keysFun keys i) b = 0) :
    destC keys b i = count0 keys b i := by
  unfold destC radix_move_dest
  beta_reduce
  rw [if_pos h0]
  have := count0_add_count1 keys b i (by omega)
  omega

theorem destC_one_eq (keys : List ℕ) (b i : ℕ)
    (h1 : bitOf (keysFun keys i) b = 1) :
    destC keys b i = count0 keys b keys.length + count1 keys b i := by
  unfold destC radix_move_dest
  beta_reduce
  rw [if_neg (by omega)]
  have := count0_add_count1 keys b keys.length (le_refl _)
  omega

theorem destC_zero_lt (keys : List ℕ) (b i : ℕ) (hi : i < keys.length)
    (h0 : bitOf (keysFun keys i) b = 0) :
    destC keys b i < count0 keys b keys.length := by
  rw [destC_zero_eq keys b i hi h0]
  have hsucc := count0_succ keys b i hi
  have hmono := count0_mono keys b (i + 1) keys.length (by omega)
  rw [h0] at hsucc
  omega

theorem destC_one_lt (keys : List ℕ) (b i : ℕ) (hi : i < keys.length)
    (h1 : bitOf (keysFun keys i) b = 1) :
    count0 keys b keys.length ≤ destC keys b i ∧ destC keys b i < keys.length := by
  rw [destC_one_eq keys b i h1]
  have hsucc := count1_succ keys b i hi
  have hmono := count1_mono keys b (i + 1) keys.length (by omega)
  have hid := count0_add_count1 keys b keys.length (le_refl _)
  rw [h1] at hsucc
  omega

/-- The scatter destination map is injective on the element range. -/
theorem destC_inj (keys : List ℕ) (b : ℕ) :
    ∀ i j, i < keys.length → j < keys.length →
      destC keys b i = destC keys b j → i = j := by
  have key : ∀ i j, i < j → j < keys.length → destC keys b i ≠ destC keys b j := by
    intro i j hij hj
    have hi : i < keys.length := by omega
    have h2i := bitOf_lt_two (keysFun keys i) b
    have h2j := bitOf_lt_two (keysFun keys j) b
    rcases (by omega : bitOf (keysFun keys i) b = 0 ∨ bitOf (keysFun keys i) b = 1)
      with hbi | hbi <;>
    rcases (by omega : bitOf (keysFun keys j) b = 0 ∨ bitOf (keysFun keys j) b = 1)
      with hbj | hbj
    · rw [destC_zero_eq keys b i hi hbi, destC_zero_eq keys b j hj hbj]
      have hsucc := count0_succ keys b i hi
      have hmono := count0_mono keys b (i + 1) j (by omega)
      rw [hbi] at hsucc
      omega
    · have hlt := destC_zero_lt keys b i hi hbi
      have hge := (destC_one_lt keys b j hj hbj).1
      omega
    · have hlt := destC_zero_lt keys b j hj hbj
      have hge := (destC_one_lt keys b i hi hbi).1
      omega
    · rw [destC_one_eq keys b i hbi, destC_one_eq keys b j hbj]
      have hsucc := count1_succ keys b i hi
      have hmono := count1_mono keys b (i + 1) j (by omega)
      rw [hbi] at hsucc
      omega
  intro i j hi hj heq
  rcases Nat.lt_trichotomy i j with h | h | h
  · exact absurd heq (key i j h hj)
  · exact h
  · exact absurd heq.symm (key j i h hi)

/-- The scatter destination map stays inside the element range. -/
theorem destC_lt (keys : List ℕ) (b i : ℕ) (hi : i < keys.length) :
    destC keys b i < keys.length := by
  have h2 := bitOf_lt_two (keysFun keys i) b
  rcases (by omega : bitOf (keysFun keys i) b = 0 ∨ bitOf (keysFun keys i) b = 1)
    with hb | hb
  · have := destC_zero_lt keys b i hi hb
    have := count0_le keys b keys.length
    omega
  · exact (destC_one_lt keys b i hi hb).2

/-- The scatter destination map is a bijection from the element range onto
the element range. -/
theorem destC_bijective (keys : List ℕ) (b : ℕ) :
    (Finset.range keys.length).image (destC keys b) = Finset.range keys.length := by
  apply Finset.eq_of_subset_of_card_le
  · intro d hd
    obtain ⟨i, hi, rfl⟩ := Finset.mem_image.mp hd
    rw [Finset.mem_range] at hi ⊢
    exact destC_lt keys b i hi
  · rw [Finset.card_range, Finset.card_image_of_injOn]
    · rw [Finset.card_range]
    · intro i hi j hj heq
      rw [Finset.coe_range, Set.mem_Iio] at hi hj
      exact destC_inj keys b i j hi hj heq

/-! ### Shape of the host recursion's dispatch trace -/

theorem scanDepth_succ (g m fuel step : ℕ) :
    scanDepth g m (fuel + 1) step
      = if step * g < m then scanDepth g m fuel (step * g) + 1 else 0 := rfl

theorem prefix_sum_trace_succ (g m fuel step : ℕ) :
    prefix_sum_trace g m (fuel + 1) step
      = ScanEv.gather step ::
          ((if step * g < m then prefix_sum_trace g m fuel (step * g)
            else [ScanEv.copy]) ++ [ScanEv.propagate step, ScanEv.swap]) := rfl

/-- Closed form of the host recursion's dispatch trace: with sufficient fuel,
the trace is the ascending gather dispatches for strides `s·gⁱ`, one
snapshot copy at the base, and then, coarsest level first, one propagate
dispatch immediately followed by one buffer swap per level; the levels are
exactly the strides for which the recursion guard `step·g < m` held. -/
theorem trace_shape (g m : ℕ) (hg : 2 ≤ g) :
    ∀ fuel s, 1 ≤ s → m ≤ s * g ^ fuel →
      prefix_sum_trace g m fuel s
        = ((List.range (scanDepth g m fuel s + 1)).map
              (fun i => ScanEv.gather (s * g ^ i)))
            ++ [ScanEv.copy]
            ++ (((List.range (scanDepth g m fuel s + 1)).reverse.map
              (fun i => [ScanEv.propagate (s * g ^ i), ScanEv.swap])).flatten)
      ∧ (∀ i, i < scanDepth g m fuel s → s * g ^ (i + 1) < m)
      ∧ ¬(s * g ^ (scanDepth g m fuel s + 1) < m) := by
  intro fuel
  induction fuel with
  | zero =>
    intro s hs hfuel
    rw [pow_zero, Nat.mul_one] at hfuel
    refine ⟨?_, ?_, ?_⟩
    · show [ScanEv.gather s, ScanEv.copy, ScanEv.propagate s, ScanEv.swap]
        = (List.range (0 + 1)).map (fun i => ScanEv.gather (s * g ^ i))
          ++ [ScanEv.copy]
          ++ ((List.range (0 + 1)).reverse.map
            (fun i => [ScanEv.propagate (s * g ^ i), ScanEv.swap])).flatten
      simp [List.range_succ]
    · intro i hi
      exact absurd hi (by show ¬(i < 0); omega)
    · show ¬(s * g ^ (0 + 1) < m)
      rw [pow_one]
      have h1 : s * 1 ≤ s * g := Nat.mul_le_mul_left s (by omega)
      omega
  | succ fuel ih =>
    intro s hs hfuel
    by_cases hrec : s * g < m
    · have hfuel2 : m ≤ s * g * g ^ fuel := by
        calc m ≤ s * g ^ (fuel + 1) := hfuel
          _ = s * g * g ^ fuel := by ring
      have hsg0 : 0 < s * g := by positivity
      obtain ⟨iht, ihc, ihb⟩ := ih (s * g) (by omega) hfuel2
      have hdep : scanDepth g m (fuel + 1) s = scanDepth g m fuel (s * g) + 1 := by
        rw [scanDepth_succ, if_pos hrec]
      refine ⟨?_, ?_, ?_⟩
      · rw [prefix_sum_trace_succ, if_pos hrec, iht, hdep]
        have hgathers : (List.range (scanDepth g m fuel (s * g) + 1 + 1)).map
              (fun i => ScanEv.gather (s * g ^ i))
            = ScanEv.gather s :: (List.range (scanDepth g m fuel (s * g) + 1)).map
              (fun i => ScanEv.gather (s * g * g ^ i)) := by
          rw [List.range_succ_eq_map, List.map_cons, List.map_map]
          congr 1
          · rw [pow_zero, Nat.mul_one]
          · apply List.map_congr_left
            intro a _
            show ScanEv.gather (s * g ^ (a + 1)) = ScanEv.gather (s * g * g ^ a)
            congr 1
            ring
        have hprops : ((List.range (scanDepth g m fuel (s * g) + 1 + 1)).reverse.map
              (fun i => [ScanEv.propagate (s * g ^ i), ScanEv.swap])).flatten
            = ((List.range (scanDepth g m fuel (s * g) + 1)).reverse.map
                (fun i => [ScanEv.propagate (s * g * g ^ i), ScanEv.swap])).flatten
              ++ [ScanEv.propagate s, ScanEv.swap] := by
          rw [List.range_succ_eq_map, List.reverse_cons, List.map_append,
            List.flatten_append, ← List.map_reverse, List.map_map]
          congr 1
          · congr 1
            apply List.map_congr_left
            intro a _
            show [ScanEv.propagate (s * g ^ (a + 1)), ScanEv.swap]
              = [ScanEv.propagate (s * g * g ^ a), ScanEv.swap]
            congr 2
            ring
          · show ([[ScanEv.propagate (s * g ^ 0), ScanEv.swap]]).flatten
              = [ScanEv.propagate s, ScanEv.swap]
            rw [pow_zero, Nat.mul_one]
            rfl
        rw [hgathers, hprops]
        simp only [List.cons_append, List.append_assoc]
      · intro i hi
        rw [hdep] at hi
        cases i with
        | zero =>
          rw [pow_one]
          exact hrec
        | succ i =>
          have h1 := ihc i (by omega)
          have h2 : s * g * g ^ (i + 1) = s * g ^ (i + 1 + 1) := by ring
          rw [h2] at h1
          exact h1
      · rw [hdep]
        intro hcon
        apply ihb
        have h2 : s * g * g ^ (scanDepth g m fuel (s * g) + 1)
            = s * g ^ (scanDepth g m fuel (s * g) + 1 + 1) := by ring
        rw [h2]
        exact hcon
    · have hdep : scanDepth g m (fuel + 1) s = 0 := by
        rw [scanDepth_succ, if_neg hrec]
      refine ⟨?_, ?_, ?_⟩
      · rw [prefix_sum_trace_succ, if_neg hrec, hdep]
        simp [List.range_succ]
      · intro i hi
        rw [hdep] at hi
        exact absurd hi (by show ¬(i < 0); omega)
      · rw [hdep]
        rw [pow_one]
        exact hrec

/-- Counting the propagate/swap pairs in the flattened per-level blocks. -/
theorem countP_flatten_pairs (P : ScanEv → Bool) (f : ℕ → ScanEv) (e : ScanEv)
    (hP : ∀ i, P (f i) = true) (hPe : P e = false) :
    ∀ ls : List ℕ,
      ((ls.map (fun i => [f i, e])).flatten).countP P = ls.length := by
  intro ls
  induction ls with
  | nil => rfl
  | cons a ls ih =>
    rw [List.map_cons, List.flatten_cons, List.countP_append, ih]
    show List.countP P [f a, e] + ls.length = ls.length + 1
    rw [List.countP_cons_of_pos P _ (hP a), List.countP_cons_of_neg P _ (by rw [hPe]; exact Bool.false_ne_true), List.countP_nil]
    omega

/-! ### Dispatch-count helpers for the trace -/

theorem fuel_bound (g m : ℕ) (hg : 2 ≤ g) : m ≤ 1 * g ^ m := by
  rw [one_mul]
  calc m ≤ 2 ^ m := Nat.le_of_lt (Nat.lt_two_pow m)
    _ ≤ g ^ m := Nat.pow_le_pow_left hg m

theorem countP_map_zero (P : ScanEv → Bool) (f : ℕ → ScanEv)
    (h : ∀ i, P (f i) = false) (l : List ℕ) :
    (l.map f).countP P = 0 := by
  rw [List.countP_eq_zero]
  intro a ha
  obtain ⟨i, -, rfl⟩ := List.mem_map.mp ha
  rw [h i]
  exact Bool.false_ne_true

theorem countP_flatten_pairs_snd (P : ScanEv → Bool) (f : ℕ → ScanEv)
    (e : ScanEv) (hP : ∀ i, P (f i) = false) (hPe : P e = true) :
    ∀ ls : List ℕ,
      ((ls.map (fun i => [f i, e])).flatten).countP P = ls.length := by
  intro ls
  induction ls with
  | nil => rfl
  | cons a ls ih =>
    rw [List.map_cons, List.flatten_cons, List.countP_append, ih]
    show List.countP P [f a, e] + ls.length = ls.length + 1
    rw [List.countP_cons_of_neg P _ (by rw [hP a]; exact Bool.false_ne_true),
      List.countP_cons_of_pos P _ hPe, List.countP_nil]
    omega

/-- The top-level trace contains exactly one propagate dispatch and exactly
one buffer swap per recursion level. -/
theorem trace_counts (g m : ℕ) (hg : 2 ≤ g) :
    (prefix_sum_trace g m m 1).countP isPropagateEv = scanDepth g m m 1 + 1 ∧
    (prefix_sum_trace g m m 1).countP isSwapEv = scanDepth g m m 1 + 1 := by
  obtain ⟨ht, -, -⟩ := trace_shape g m hg m 1 (le_refl 1) (fuel_bound g m hg)
  rw [ht]
  constructor
  · rw [List.countP_append, List.countP_append,
      countP_map_zero isPropagateEv (fun i => ScanEv.gather (1 * g ^ i))
        (fun i => rfl),
      countP_flatten_pairs isPropagateEv (fun i => ScanEv.propagate (1 * g ^ i))
        ScanEv.swap (fun i => rfl) rfl,
      List.length_reverse, List.length_range]
    have hcopy : List.countP isPropagateEv [ScanEv.copy] = 0 := rfl
    omega
  · rw [List.countP_append, List.countP_append,
      countP_map_zero isSwapEv (fun i => ScanEv.gather (1 * g ^ i))
        (fun i => rfl),
      countP_flatten_pairs_snd isSwapEv (fun i => ScanEv.propagate (1 * g ^ i))
        ScanEv.swap (fun i => rfl) rfl,
      List.length_reverse, List.length_range]
    have hcopy : List.countP isSwapEv [ScanEv.copy] = 0 := rfl
    omega

/-! ### The claims -/

/-- C1: for every array of 32-bit keys — any length, duplicates included —
the full 32-pass sort is a non-decreasing permutation of the input, and
after the pass for bit 31 completes (passes 0..31 all done), the current key
buffer holds exactly this fully sorted array. -/
theorem radix_sort_correct (keys : List ℕ) (hkeys : ∀ k ∈ keys, k < 2 ^ 32) :
    (radix_sort 256 keys).Sorted (· ≤ ·) ∧ (radix_sort 256 keys).Perm keys ∧
    sortPasses 256 keys 32 = radix_sort 256 keys := by
  obtain ⟨hp, hs, -⟩ := sortPasses_invariant 256 (by omega) keys 32
  rw [radix_sort_eq_sortPasses]
  refine ⟨?_, hp, rfl⟩
  show List.Pairwise (· ≤ ·) (sortPasses 256 keys 32)
  refine List.Pairwise.imp_of_mem (fun {x y} hx hy hxy => ?_) hs
  have hxk : x < 2 ^ 32 := hkeys x (hp.subset hx)
  have hyk : y < 2 ^ 32 := hkeys y (hp.subset hy)
  rwa [Nat.mod_eq_of_lt hxk, Nat.mod_eq_of_lt hyk] at hxy

theorem radix_sort_correct_witness :
    (∀ k ∈ [(5 : ℕ), 3, 3, 1, 4], k < 2 ^ 32) ∧
      ((radix_sort 256 [5, 3, 3, 1, 4]).Sorted (· ≤ ·) ∧
        (radix_sort 256 [5, 3, 3, 1, 4]).Perm [5, 3, 3, 1, 4] ∧
        sortPasses 256 [5, 3, 3, 1, 4] 32 = radix_sort 256 [5, 3, 3, 1, 4]) :=
  ⟨by decide, radix_sort_correct [5, 3, 3, 1, 4] (by decide)⟩

set_option maxRecDepth 40000 in
/-- C2 counterexample: for keys `[1]` at bit 0, the scanned counts cell 1
holds 1 — the number of set-bit elements among the first 1 keys — while the
number of clear-bit elements among them is 0; so after the scan `counts[i]`
does not count the elements whose bit is 0, as the claim states. -/
theorem scan_counts_zero_bit_counterexample :
    scanTop 256 2 (radix_setup [1] 0) 1 = 1 ∧ count0 [1] 0 1 = 0 := by
  constructor
  · decide
  · decide

/-- C2 amended: the Counting Stage stores `counts[i] = 1` iff bit `b` of
`keys[i]` is set, and after the complete scan `counts[i]` equals the number
of elements among `keys[0..i-1]` whose bit `b` is **1** (not 0), with
`counts[n]` the total number of elements whose bit `b` is 1. -/
theorem counting_scan_set_bit_semantics (g : ℕ) (hg : 2 ≤ g) (keys : List ℕ)
    (b : ℕ) :
    (∀ i, i < keys.length →
      radix_setup keys b i
        = (if bitOf (keysFun keys i) b = 1 then 1 else 0)) ∧
    (∀ i, i ≤ keys.length →
      scanTop g (keys.length + 1) (radix_setup keys b) i = count1 keys b i) ∧
    scanTop g (keys.length + 1) (radix_setup keys b) keys.length
      = (keys.filter (fun k => bitOf k b == 1)).length := by
  refine ⟨?_, scan_setup_eq_count1 g hg keys b, ?_⟩
  · intro i hi
    show (if i < keys.length then bitOf (keys.getD i 0) b else 0) = _
    rw [if_pos hi]
    have h2 := bitOf_lt_two (keysFun keys i) b
    have hkf : keysFun keys i = keys.getD i 0 := rfl
    by_cases hb : bitOf (keysFun keys i) b = 1
    · rw [if_pos hb, ← hkf, hb]
    · rw [if_neg hb, ← hkf]
      omega
  · rw [scan_setup_eq_count1 g hg keys b keys.length (le_refl _), count1_total]

theorem counting_scan_set_bit_semantics_witness :
    (2 ≤ 2) ∧
      ((∀ i, i < [(2 : ℕ), 3].length →
        radix_setup [2, 3] 0 i
          = (if bitOf (keysFun [2, 3] i) 0 = 1 then 1 else 0)) ∧
      (∀ i, i ≤ [(2 : ℕ), 3].length →
        scanTop 2 ([(2 : ℕ), 3].length + 1) (radix_setup [2, 3] 0) i
          = count1 [2, 3] 0 i) ∧
      scanTop 2 ([(2 : ℕ), 3].length + 1) (radix_setup [2, 3] 0) [(2 : ℕ), 3].length
        = ([(2 : ℕ), 3].filter (fun k => bitOf k 0 == 1)).length) :=
  ⟨by decide, counting_scan_set_bit_semantics 2 (by decide) [2, 3] 0⟩

/-- C3: for every input sequence in the counts buffer, after the outermost
`prefix_sum` call returns the current counts buffer holds exactly the
exclusive prefix sum of the input on the whole valid range, and the result
is the same for every group size (in particular 2, 4 and 256). -/
theorem scan_exclusive_prefix_group_independent (g m : ℕ) (hg : 2 ≤ g)
    (c : ℕ → ℕ) (p : ℕ) (hp : p < m) :
    scanTop g m c p = ∑ q ∈ Finset.range p, c q ∧
    scanTop 2 m c p = scanTop g m c p ∧
    scanTop 4 m c p = scanTop g m c p ∧
    scanTop 256 m c p = scanTop g m c p := by
  have h := scanTop_correct g m hg c p hp
  refine ⟨h, ?_, ?_, ?_⟩ <;>
    rw [scanTop_correct _ m (by norm_num) c p hp, h]

theorem scan_exclusive_prefix_group_independent_witness :
    ((2 ≤ 3) ∧ (5 < 6)) ∧
      (scanTop 3 6 (fun i => [0, 1, 0, 1, 1, 0].getD i 0) 5
          = ∑ q ∈ Finset.range 5, [0, 1, 0, 1, 1, 0].getD q 0 ∧
        scanTop 2 6 (fun i => [0, 1, 0, 1, 1, 0].getD i 0) 5
          = scanTop 3 6 (fun i => [0, 1, 0, 1, 1, 0].getD i 0) 5 ∧
        scanTop 4 6 (fun i => [0, 1, 0, 1, 1, 0].getD i 0) 5
          = scanTop 3 6 (fun i => [0, 1, 0, 1, 1, 0].getD i 0) 5 ∧
        scanTop 256 6 (fun i => [0, 1, 0, 1, 1, 0].getD i 0) 5
          = scanTop 3 6 (fun i => [0, 1, 0, 1, 1, 0].getD i 0) 5) :=
  ⟨⟨by decide, by decide⟩,
    scan_exclusive_prefix_group_independent 3 6 (by decide)
      (fun i => [0, 1, 0, 1, 1, 0].getD i 0) 5 (by decide)⟩

set_option maxRecDepth 40000 in
/-- C4 counterexample: with the counts the pipeline actually produces for
keys `[1, 2]` at bit 0, the spec's literal destination formula sends both
elements to destination 1, so two sources collide and the resulting scatter
is not the stable partition the claim promises. -/
theorem spec_scatter_formula_counterexample :
    spec_move_dest 2 (keysFun [1, 2])
        (scanTop 256 3 (radix_setup [1, 2] 0)) 0 0
      = spec_move_dest 2 (keysFun [1, 2])
        (scanTop 256 3 (radix_setup [1, 2] 0)) 0 1 ∧
    spec_pass 256 [1, 2] 0 ≠ stablePartition [1, 2] 0 := by
  constructor
  · decide
  · decide

/-- C4 amended: with the counts convention the source fixes (counts are
exclusive prefix sums of the **set**-bit flags), the Scatter Stage writes
`keys[i]` to destination `i - counts[i]` when bit `b` is 0 and to
`(n - counts[n]) + counts[i]` when bit `b` is 1, and this yields the stable
partition: 0-bit keys first, each class in original relative order. -/
theorem scatter_formula_stable_partition (g : ℕ) (hg : 2 ≤ g)
    (keys : List ℕ) (b : ℕ) :
    (∀ i, i < keys.length →
      radix_move_dest keys.length (keysFun keys)
          (scanTop g (keys.length + 1) (radix_setup keys b)) b i
        = if bitOf (keysFun keys i) b = 0
          then i - scanTop g (keys.length + 1) (radix_setup keys b) i
          else (keys.length
              - scanTop g (keys.length + 1) (radix_setup keys b) keys.length)
            + scanTop g (keys.length + 1) (radix_setup keys b) i) ∧
    radix_pass g keys b
      = keys.filter (fun k => bitOf k b == 0)
        ++ keys.filter (fun k => bitOf k b == 1) :=
  ⟨fun i _ => rfl, radix_pass_eq_stablePartition g hg keys b⟩

theorem scatter_formula_stable_partition_witness :
    (2 ≤ 256) ∧
      ((∀ i, i < [(5 : ℕ), 3, 3, 1, 4].length →
        radix_move_dest [(5 : ℕ), 3, 3, 1, 4].length (keysFun [5, 3, 3, 1, 4])
            (scanTop 256 ([(5 : ℕ), 3, 3, 1, 4].length + 1)
              (radix_setup [5, 3, 3, 1, 4] 0)) 0 i
          = if bitOf (keysFun [5, 3, 3, 1, 4] i) 0 = 0
            then i - scanTop 256 ([(5 : ℕ), 3, 3, 1, 4].length + 1)
              (radix_setup [5, 3, 3, 1, 4] 0) i
            else ([(5 : ℕ), 3, 3, 1, 4].length
                - scanTop 256 ([(5 : ℕ), 3, 3, 1, 4].length + 1)
                  (radix_setup [5, 3, 3, 1, 4] 0) [(5 : ℕ), 3, 3, 1, 4].length)
              + scanTop 256 ([(5 : ℕ), 3, 3, 1, 4].length + 1)
                (radix_setup [5, 3, 3, 1, 4] 0) i) ∧
      radix_pass 256 [5, 3, 3, 1, 4] 0
        = [(5 : ℕ), 3, 3, 1, 4].filter (fun k => bitOf k 0 == 0)
          ++ [(5 : ℕ), 3, 3, 1, 4].filter (fun k => bitOf k 0 == 1)) :=
  ⟨by decide, scatter_formula_stable_partition 256 (by decide) [5, 3, 3, 1, 4] 0⟩

/-- C5: after the pass for bit `b` (passes 0..b all done), the current key
buffer is a permutation of the input sorted by its low `b + 1` bits, and
every class of keys agreeing on those bits keeps its original relative
order — stability with respect to the untouched higher bits; this holds for
each of the 32 passes. -/
theorem pass_prefix_invariant (keys : List ℕ) (b : ℕ) (hb : b < 32) :
    (sortPasses 256 keys (b + 1)).Perm keys ∧
    (sortPasses 256 keys (b + 1)).Pairwise
      (fun x y => x % 2 ^ (b + 1) ≤ y % 2 ^ (b + 1)) ∧
    ∀ v : ℕ,
      (sortPasses 256 keys (b + 1)).filter (fun k => k % 2 ^ (b + 1) == v)
        = keys.filter (fun k => k % 2 ^ (b + 1) == v) := by
  obtain ⟨hp, hs, hf⟩ := sortPasses_invariant 256 (by omega) keys (b + 1)
  exact ⟨hp, hs, fun v => hf _ v (fun k hk => eq_of_beq hk)⟩

theorem pass_prefix_invariant_witness :
    (0 < 32) ∧
      ((sortPasses 256 [5, 3, 3, 1, 4] (0 + 1)).Perm [5, 3, 3, 1, 4] ∧
        (sortPasses 256 [5, 3, 3, 1, 4] (0 + 1)).Pairwise
          (fun x y => x % 2 ^ (0 + 1) ≤ y % 2 ^ (0 + 1)) ∧
        ∀ v : ℕ,
          (sortPasses 256 [5, 3, 3, 1, 4] (0 + 1)).filter
              (fun k => k % 2 ^ (0 + 1) == v)
            = [(5 : ℕ), 3, 3, 1, 4].filter (fun k => k % 2 ^ (0 + 1) == v)) :=
  ⟨by decide, pass_prefix_invariant [5, 3, 3, 1, 4] 0 (by decide)⟩

/-- C6: for the counts array a completed scan produces, the scatter
destination mapping is a bijection onto `[0, n)`: its image is the whole
index range and no two source elements share a destination. -/
theorem scatter_dest_bijective (g : ℕ) (hg : 2 ≤ g) (keys : List ℕ) (b : ℕ) :
    ((Finset.range keys.length).image
        (radix_move_dest keys.length (keysFun keys)
          (scanTop g (keys.length + 1) (radix_setup keys b)) b)
      = Finset.range keys.length) ∧
    ∀ i j, i < keys.length → j < keys.length →
      radix_move_dest keys.length (keysFun keys)
          (scanTop g (keys.length + 1) (radix_setup keys b)) b i
        = radix_move_dest keys.length (keysFun keys)
          (scanTop g (keys.length + 1) (radix_setup keys b)) b j → i = j := by
  constructor
  · rw [Finset.image_congr (fun x hx =>
      dest_eq_destC g hg keys b x (by simpa using hx))]
    exact destC_bijective keys b
  · intro i j hi hj heq
    rw [dest_eq_destC g hg keys b i hi, dest_eq_destC g hg keys b j hj] at heq
    exact destC_inj keys b i j hi hj heq

theorem scatter_dest_bijective_witness :
    (2 ≤ 2) ∧
      (((Finset.range [(1 : ℕ), 2].length).image
          (radix_move_dest [(1 : ℕ), 2].length (keysFun [1, 2])
            (scanTop 2 ([(1 : ℕ), 2].length + 1) (radix_setup [1, 2] 0)) 0)
        = Finset.range [(1 : ℕ), 2].length) ∧
      ∀ i j, i < [(1 : ℕ), 2].length → j < [(1 : ℕ), 2].length →
        radix_move_dest [(1 : ℕ), 2].length (keysFun [1, 2])
            (scanTop 2 ([(1 : ℕ), 2].length + 1) (radix_setup [1, 2] 0)) 0 i
          = radix_move_dest [(1 : ℕ), 2].length (keysFun [1, 2])
            (scanTop 2 ([(1 : ℕ), 2].length + 1) (radix_setup [1, 2] 0)) 0 j
          → i = j) :=
  ⟨by decide, scatter_dest_bijective 2 (by decide) [1, 2] 0⟩

/-- C7: the host scan recursion issues the gather dispatch, recurses with
`step * groupSize` exactly when that still indexes within range `m`,
snapshots the counts buffer in the base case, and only after the recursive
call returns issues the propagate dispatch for the current step followed by
the buffer swap.  Consequently the full trace is: gathers with
geometrically increasing steps, one copy, then one propagate-swap pair per
level, coarsest level first; the levels are exactly the steps passing the
recursion guard. -/
theorem prefix_sum_recursion_structure (g m : ℕ) (hg : 2 ≤ g) :
    (∀ fuel s, prefix_sum_trace g m (fuel + 1) s
      = ScanEv.gather s ::
          ((if s * g < m then prefix_sum_trace g m fuel (s * g)
            else [ScanEv.copy]) ++ [ScanEv.propagate s, ScanEv.swap])) ∧
    prefix_sum_trace g m m 1
      = ((List.range (scanDepth g m m 1 + 1)).map
            (fun i => ScanEv.gather (g ^ i)))
          ++ [ScanEv.copy]
          ++ (((List.range (scanDepth g m m 1 + 1)).reverse.map
            (fun i => [ScanEv.propagate (g ^ i), ScanEv.swap])).flatten) ∧
    (∀ i, i < scanDepth g m m 1 → g ^ (i + 1) < m) ∧
    ¬(g ^ (scanDepth g m m 1 + 1) < m) := by
  obtain ⟨ht, hc, hb⟩ := trace_shape g m hg m 1 (le_refl 1) (fuel_bound g m hg)
  simp only [one_mul] at ht hc hb
  exact ⟨fun fuel s => prefix_sum_trace_succ g m fuel s, ht, hc, hb⟩

theorem prefix_sum_recursion_structure_witness :
    (2 ≤ 3) ∧
      ((∀ fuel s, prefix_sum_trace 3 10 (fuel + 1) s
        = ScanEv.gather s ::
            ((if s * 3 < 10 then prefix_sum_trace 3 10 fuel (s * 3)
              else [ScanEv.copy]) ++ [ScanEv.propagate s, ScanEv.swap])) ∧
      prefix_sum_trace 3 10 10 1
        = ((List.range (scanDepth 3 10 10 1 + 1)).map
              (fun i => ScanEv.gather (3 ^ i)))
            ++ [ScanEv.copy]
            ++ (((List.range (scanDepth 3 10 10 1 + 1)).reverse.map
              (fun i => [ScanEv.propagate (3 ^ i), ScanEv.swap])).flatten) ∧
      (∀ i, i < scanDepth 3 10 10 1 → 3 ^ (i + 1) < 10) ∧
      ¬(3 ^ (scanDepth 3 10 10 1 + 1) < 10)) :=
  ⟨by decide, prefix_sum_recursion_structure 3 10 (by decide)⟩

set_option maxRecDepth 400000 in
/-- C8: on the concrete input `[5, 3, 3, 1, 4]` the complete sort returns
`[1, 3, 3, 4, 5]`, and the single pass for bit 0 alone yields
`[4, 5, 3, 3, 1]` — the one even key first, the odd keys following in their
original relative order. -/
theorem concrete_scenario_sort_and_bit0_pass :
    radix_sort 256 [5, 3, 3, 1, 4] = [1, 3, 3, 4, 5] ∧
    radix_pass 256 [5, 3, 3, 1, 4] 0 = [4, 5, 3, 3, 1] := by
  constructor
  · decide
  · decide

/-- C9: after the top-level `prefix_sum(1)` call returns, the finished
exclusive prefix sum resides in the current counts buffer (`a_cnts_gpu`,
the first component of the state) — which the scatter dispatch then reads —
and the trace shows one propagate and one swap per recursion level. -/
theorem scan_result_in_current_buffer (g m : ℕ) (hg : 2 ≤ g) (c : ℕ → ℕ)
    (p : ℕ) (hp : p < m) :
    (scanState g m c).1 p = ∑ q ∈ Finset.range p, c q ∧
    (prefix_sum_trace g m m 1).countP isPropagateEv = scanDepth g m m 1 + 1 ∧
    (prefix_sum_trace g m m 1).countP isSwapEv = scanDepth g m m 1 + 1 := by
  obtain ⟨h1, h2⟩ := trace_counts g m hg
  exact ⟨scanTop_correct g m hg c p hp, h1, h2⟩

theorem scan_result_in_current_buffer_witness :
    ((2 ≤ 3) ∧ (2 < 6)) ∧
      ((scanState 3 6 (fun i => [0, 1, 0, 1, 1, 0].getD i 0)).1 2
          = ∑ q ∈ Finset.range 2, [0, 1, 0, 1, 1, 0].getD q 0 ∧
        (prefix_sum_trace 3 6 6 1).countP isPropagateEv
          = scanDepth 3 6 6 1 + 1 ∧
        (prefix_sum_trace 3 6 6 1).countP isSwapEv = scanDepth 3 6 6 1 + 1) :=
  ⟨⟨by decide, by decide⟩,
    scan_result_in_current_buffer 3 6 (by decide)
      (fun i => [0, 1, 0, 1, 1, 0].getD i 0) 2 (by decide)⟩

/-- C10: every key the harness generator produces lies in `[0, 2^31 - 1]`
(`r.next(0, INT_MAX)`), so bit 31 of every benchmarked key is 0; for all
such inputs the final pass (bit 31) is an identity reordering — the stable
partition puts every element in the 0-bit class in unchanged order — and
the set-top-bit path is never taken. -/
theorem generator_top_bit_identity (g : ℕ) (hg : 2 ≤ g) (keys : List ℕ)
    (hkeys : ∀ k ∈ keys, k ≤ 2 ^ 31 - 1) :
    (∀ k ∈ keys, bitOf k 31 = 0) ∧ radix_pass g keys 31 = keys := by
  have hbit : ∀ k ∈ keys, bitOf k 31 = 0 := by
    intro k hk
    have hk31 : k < 2 ^ 31 := Nat.lt_of_le_of_lt (hkeys k hk) (by norm_num)
    unfold bitOf
    rw [Nat.div_eq_of_lt hk31]
  refine ⟨hbit, ?_⟩
  rw [radix_pass_eq_stablePartition g hg keys 31]
  unfold stablePartition
  have h0 : keys.filter (fun k => bitOf k 31 == 0) = keys := by
    rw [List.filter_eq_self]
    intro a ha
    rw [hbit a ha]
    rfl
  have h1 : keys.filter (fun k => bitOf k 31 == 1) = [] := by
    rw [List.filter_eq_nil_iff]
    intro a ha hcon
    have : bitOf a 31 = 1 := eq_of_beq hcon
    rw [hbit a ha] at this
    exact absurd this (by omega)
  rw [h0, h1, List.append_nil]

theorem generator_top_bit_identity_witness :
    ((2 ≤ 2) ∧ (∀ k ∈ [(5 : ℕ), 100], k ≤ 2 ^ 31 - 1)) ∧
      ((∀ k ∈ [(5 : ℕ), 100], bitOf k 31 = 0) ∧
        radix_pass 2 [5, 100] 31 = [5, 100]) :=
  ⟨⟨by decide, by decide⟩,
    generator_top_bit_identity 2 (by decide) [5, 100] (by decide)⟩

end Radix

